import Mathlib

/-!
Verification of the MiftahDB key-value semantics layer.

The embedding follows `src/base.ts` (the Store Engine and Transaction
Coordinator).  The value codec (`encoding.ts`), the SQL statement texts
(`statements.ts`) and the error classes are not part of the provided sources,
so those leaves are modelled from the spec, as noted on each definition.
The database table `(key TEXT PRIMARY KEY, value BLOB, expires_at INTEGER
NULL)` is embedded as an insertion-ordered association list with unique keys;
timestamps are milliseconds since the epoch, embedded as `Int`.
-/

namespace MiftahDB

mutual

/-- Supported application value kinds.  Modelled from the spec (`encoding.ts`
is missing from the sources): "null, boolean, integer/float number, string,
raw binary, and structured (nested object/array) values"; date/time is listed
in the data model.  Numbers and timestamps are embedded as mathematical
integers. -/
inductive MiftahValue : Type where
  | vnull : MiftahValue
  | vbool (b : Bool) : MiftahValue
  | vnum (n : Int) : MiftahValue
  | vstr (s : String) : MiftahValue
  | vbin (bytes : List Nat) : MiftahValue
  | vdate (ms : Int) : MiftahValue
  | varr (elems : MiftahList) : MiftahValue
  | vobj (fields : MiftahFields) : MiftahValue

inductive MiftahList : Type where
  | nil : MiftahList
  | cons (v : MiftahValue) (vs : MiftahList) : MiftahList

inductive MiftahFields : Type where
  | fnil : MiftahFields
  | fcons (k : String) (v : MiftahValue) (fs : MiftahFields) : MiftahFields

end

/-- Number of elements of an embedded array value. -/
def listLen : MiftahList → Nat
  | .nil => 0
  | .cons _ vs => listLen vs + 1

/-- Number of fields of an embedded object value. -/
def fieldsLen : MiftahFields → Nat
  | .fnil => 0
  | .fcons _ _ fs => fieldsLen fs + 1

/-- Sign-magnitude token encoding of an integer payload. -/
def encodeInt (n : Int) : List Nat :=
  if n < 0 then [1, n.natAbs] else [0, n.natAbs]

/-- Token encoding of a string payload: length, then the character codes. -/
def encodeStr (s : String) : List Nat :=
  s.data.length :: s.data.map Char.toNat

mutual

/-- Modelled from the spec: the codec is "self-describing (the decoder must
recover the original kind without external type hints) — e.g., by prefixing a
type tag".  Each value is encoded as a type tag followed by its payload. -/
def encodeValue : MiftahValue → List Nat
  | .vnull => [0]
  | .vbool b => [1, cond b 1 0]
  | .vnum n => 2 :: encodeInt n
  | .vstr s => 3 :: encodeStr s
  | .vbin bs => 4 :: bs.length :: bs
  | .vdate ms => 5 :: encodeInt ms
  | .varr vs => 6 :: listLen vs :: encodeList vs
  | .vobj fs => 7 :: fieldsLen fs :: encodeFields fs

def encodeList : MiftahList → List Nat
  | .nil => []
  | .cons v vs => encodeValue v ++ encodeList vs

def encodeFields : MiftahFields → List Nat
  | .fnil => []
  | .fcons k v fs => encodeStr k ++ (encodeValue v ++ encodeFields fs)

end

/-- Reads exactly `n` tokens, returning them and the remaining stream. -/
def readN : Nat → List Nat → Option (List Nat × List Nat)
  | 0, bs => some ([], bs)
  | _ + 1, [] => none
  | n + 1, b :: bs =>
    match readN n bs with
    | some (xs, rest) => some (b :: xs, rest)
    | none => none

/-- Decodes a sign-magnitude integer payload. -/
def decodeInt : List Nat → Option (Int × List Nat)
  | 0 :: m :: r => some ((m : Int), r)
  | 1 :: m :: r => some (-(m : Int), r)
  | _ => none

/-- Decodes a string payload: a length token, then that many character
codes. -/
def decodeStr (bs : List Nat) : Option (String × List Nat) :=
  match bs with
  | len :: r =>
    match readN len r with
    | some (cs, rest) => some (⟨cs.map Char.ofNat⟩, rest)
    | none => none
  | [] => none

mutual

/-- Fuelled decoder for values; fuel bounds the nesting depth. -/
def decodeValueF : Nat → List Nat → Option (MiftahValue × List Nat)
  | 0, _ => none
  | _ + 1, 0 :: r => some (.vnull, r)
  | _ + 1, 1 :: b :: r => some (.vbool (b == 1), r)
  | _ + 1, 2 :: r =>
    match decodeInt r with
    | some (n, r') => some (.vnum n, r')
    | none => none
  | _ + 1, 3 :: r =>
    match decodeStr r with
    | some (s, r') => some (.vstr s, r')
    | none => none
  | _ + 1, 4 :: n :: r =>
    match readN n r with
    | some (bs, r') => some (.vbin bs, r')
    | none => none
  | _ + 1, 5 :: r =>
    match decodeInt r with
    | some (n, r') => some (.vdate n, r')
    | none => none
  | f + 1, 6 :: n :: r =>
    match decodeListF f n r with
    | some (vs, r') => some (.varr vs, r')
    | none => none
  | f + 1, 7 :: n :: r =>
    match decodeFieldsF f n r with
    | some (fs, r') => some (.vobj fs, r')
    | none => none
  | _ + 1, _ => none

def decodeListF : Nat → Nat → List Nat → Option (MiftahList × List Nat)
  | _, 0, r => some (.nil, r)
  | 0, _ + 1, _ => none
  | f + 1, n + 1, bs =>
    match decodeValueF f bs with
    | some (v, r) =>
      match decodeListF f n r with
      | some (vs, r') => some (.cons v vs, r')
      | none => none
    | none => none

def decodeFieldsF : Nat → Nat → List Nat → Option (MiftahFields × List Nat)
  | _, 0, r => some (.fnil, r)
  | 0, _ + 1, _ => none
  | f + 1, n + 1, bs =>
    match decodeStr bs with
    | some (k, r1) =>
      match decodeValueF f r1 with
      | some (v, r2) =>
        match decodeFieldsF f n r2 with
        | some (fs, r3) => some (.fcons k v fs, r3)
        | none => none
      | none => none
    | none => none

end

/-- Decodes a whole stored byte sequence back to a value; fails on trailing
garbage or a malformed stream (the spec's `DecodeError`). -/
def decodeValue (bs : List Nat) : Option MiftahValue :=
  match decodeValueF bs.length bs with
  | some (v, []) => some v
  | _ => none

mutual

/-- Nesting depth of a value: the fuel the decoder needs for it. -/
def weight : MiftahValue → Nat
  | .varr vs => listWeight vs + 1
  | .vobj fs => fieldsWeight fs + 1
  | _ => 1

def listWeight : MiftahList → Nat
  | .nil => 0
  | .cons v vs => max (weight v) (listWeight vs) + 1

def fieldsWeight : MiftahFields → Nat
  | .fnil => 0
  | .fcons _ v fs => max (weight v) (fieldsWeight fs) + 1

end

/-! ### Store engine state and statement layer

The table `(key TEXT PRIMARY KEY, value BLOB, expires_at INTEGER NULL)` is
embedded as an association list in insertion order with unique keys.  The SQL
statement texts (`statements.ts`) are missing from the sources, so each
statement-level operation is modelled from the spec, as noted. -/

/-- One table row apart from its key: the encoded value blob and the
`expires_at` column (`none` embeds SQL NULL, milliseconds since epoch). -/
structure Row where
  value : List Nat
  expires_at : Option Int
deriving DecidableEq

/-- The table: key/row pairs in insertion order. -/
abbrev DB := List (String × Row)

/-- Modelled from the spec: the GET/EXISTS/GET_EXPIRE statements fetch the row
with the given primary key. -/
def dbGet : DB → String → Option Row
  | [], _ => none
  | (k', r) :: t, k => if k' = k then some r else dbGet t k

/-- Modelled from the spec: the SET statement upserts — "insert or overwrite
on key conflict". -/
def dbSetRow : DB → String → Row → DB
  | [], k, r => [(k, r)]
  | (k', r') :: t, k, r =>
    if k' = k then (k, r) :: t else (k', r') :: dbSetRow t k r

/-- Modelled from the spec: the DELETE statement removes the row with the
given key, a no-op when absent. -/
def dbDelete : DB → String → DB
  | [], _ => []
  | (k', r) :: t, k => if k' = k then dbDelete t k else (k', r) :: dbDelete t k

/-- `BaseMiftahDB.delete` from `src/base.ts`: run the DELETE statement. -/
def delete (db : DB) (key : String) : DB := dbDelete db key

/-- The JavaScript truthiness test from `BaseMiftahDB.get` in `src/base.ts`:
`result?.expires_at && result.expires_at <= Date.now()`.  A stored
`expires_at` of `0` is falsy, so it does not count as expired. -/
def isExpiredJS (e : Option Int) (now : Int) : Bool :=
  match e with
  | none => false
  | some t => decide (t ≠ 0) && decide (t ≤ now)

/-- `BaseMiftahDB.get` from `src/base.ts`: fetch the row; if missing, null;
if the truthiness test marks it expired, delete the row and return null;
otherwise decode the stored value.  Returns the result together with the
possibly updated table. -/
def get (db : DB) (key : String) (now : Int) : Option MiftahValue × DB :=
  match dbGet db key with
  | none => (none, db)
  | some row =>
    if isExpiredJS row.expires_at now then (none, delete db key)
    else (decodeValue row.value, db)

/-- Error taxonomy, modelled from the spec: `ValidationError` (bad caller
input), `DecodeError`, `BackendError`. -/
inductive MiftahError : Type where
  | validationError : MiftahError
  | decodeError : MiftahError
  | backendError : MiftahError
deriving DecidableEq

/-- A caller-supplied value: either one of the supported kinds, or a value
outside the codec's closed set.  Modelled from the spec, which lists an
"unencodable value" as bad caller input. -/
inductive JSValue : Type where
  | supported (v : MiftahValue) : JSValue
  | unsupported : JSValue

/-- Modelled from the spec: encoding is total on the supported kinds, and an
unencodable value fails with `ValidationError`. -/
def encodeJS : JSValue → Except MiftahError (List Nat)
  | .supported v => .ok (encodeValue v)
  | .unsupported => .error .validationError

/-- `BaseMiftahDB.set` from `src/base.ts`: encode the value, then upsert the
row with the given absolute expiry (`none` when no expiry was passed). -/
def set (db : DB) (key : String) (value : JSValue) (expiresAt : Option Int) :
    Except MiftahError DB :=
  match encodeJS value with
  | .ok bytes => .ok (dbSetRow db key ⟨bytes, expiresAt⟩)
  | .error e => .error e

/-- `BaseMiftahDB.exists` from `src/base.ts` (dubbed `existsM`, since
`exists` is reserved in Lean): raw row presence, no expiration check. -/
def existsM (db : DB) (key : String) : Bool := (dbGet db key).isSome

/-- `BaseMiftahDB.rename` from `src/base.ts` runs the RENAME statement with
`(newKey, oldKey)`.  Modelled from the spec: "row at oldKey is relabeled to
newKey (overwriting any existing newKey row)", a no-op when oldKey is
absent. -/
def rename (db : DB) (oldKey newKey : String) : DB :=
  match dbGet db oldKey with
  | none => db
  | some row => dbSetRow (dbDelete db oldKey) newKey row

/-- `BaseMiftahDB.getExpire` from `src/base.ts`:
`result?.expires_at ? new Date(result.expires_at) : null` — the truthiness
test maps a stored `0` to null, like a missing row or a NULL column. -/
def getExpire (db : DB) (key : String) : Option Int :=
  match dbGet db key with
  | none => none
  | some row =>
    match row.expires_at with
    | some t => if t ≠ 0 then some t else none
    | none => none

/-- SQL LIKE matching over character lists: `%` matches any run, `_` one
character, anything else matches itself up to ASCII case.  Modelled from the
spec: enumeration "filter[s] by a SQL-LIKE-style pattern applied to `key`". -/
def likeMatch : List Char → List Char → Bool
  | [], s => s.isEmpty
  | '%' :: p, s => s.tails.any fun t => likeMatch p t
  | '_' :: p, s =>
    match s with
    | [] => false
    | _ :: s' => likeMatch p s'
  | c :: p, s =>
    match s with
    | [] => false
    | d :: s' => (c.toLower == d.toLower) && likeMatch p s'

/-- LIKE matching over strings; `likeM pat k` embeds `k LIKE pat`. -/
def likeM (pattern s : String) : Bool := likeMatch pattern.data s.data

/-- Modelled from the spec: the KEYS statement returns the "ordered sequence
of matching keys", in table order, with no expiration filtering. -/
def keysM (db : DB) (pattern : String) : List String :=
  (db.filter fun e => likeM pattern e.1).map fun e => e.1

/-- LIMIT/OFFSET semantics of the backend: a negative offset clamps to zero
and a negative limit means no limit. -/
def sqliteSlice (xs : List String) (limit offset : Int) : List String :=
  if limit < 0 then xs.drop offset.toNat else (xs.drop offset.toNat).take limit.toNat

/-- `BaseMiftahDB.pagination` from `src/base.ts`: computes
`offset = (page - 1) * limit` and passes `limit` and `offset` unchecked to
the PAGINATION statement. -/
def pagination (db : DB) (limit page : Int) (pattern : String) : List String :=
  sqliteSlice (keysM db pattern) limit ((page - 1) * limit)

/-- `BaseMiftahDB.count` from `src/base.ts` via the COUNT_KEYS statement:
number of rows whose key matches the pattern, expired or not. -/
def count (db : DB) (pattern : String) : Nat := (keysM db pattern).length

/-- SQL-level expiry test of the CLEANUP statement: `expires_at` is not NULL
and has passed.  Unlike the JavaScript truthiness test, `0` counts. -/
def expiredSQL (r : Row) (now : Int) : Bool :=
  match r.expires_at with
  | none => false
  | some t => decide (t ≤ now)

/-- `BaseMiftahDB.cleanup` from `src/base.ts`; the CLEANUP statement is
modelled from the spec: "physically deletes all rows with expires_at ≤ now"
(those whose `expires_at` is set and has passed). -/
def cleanup (db : DB) (now : Int) : DB :=
  db.filter fun e => !(expiredSQL e.2 now)

/-- The `multiSet` loop body: thread the table through the per-entry `set`
calls, stopping at the first failure.  An entry is `(key, value, expiresAt)`. -/
def setMany (entries : List (String × JSValue × Option Int)) (db : DB) :
    Except MiftahError DB :=
  match entries with
  | [] => .ok db
  | (k, v, e) :: rest =>
    match set db k v e with
    | .ok db' => setMany rest db'
    | .error err => .error err

/-- `BaseMiftahDB.multiSet` from `src/base.ts`: the loop of `set` calls runs
inside `db.transaction(...)`, whose semantics (the backend's transaction
primitive) roll the state back to the initial table when the callback throws.
Returns the propagated error, if any, and the resulting table. -/
def multiSet (entries : List (String × JSValue × Option Int)) (db : DB) :
    Option MiftahError × DB :=
  match setMany entries db with
  | .ok db' => (none, db')
  | .error e => (some e, db)

/-! ### Codec round-trip lemmas -/

theorem readN_append (xs rest : List Nat) :
    readN xs.length (xs ++ rest) = some (xs, rest) := by
  induction xs with
  | nil => rfl
  | cons b bs ih => simp [readN, ih]

theorem decodeInt_encode (n : Int) (r : List Nat) :
    decodeInt (encodeInt n ++ r) = some (n, r) := by
  unfold encodeInt
  split
  next h =>
    have h2 : ((n.natAbs : Int)) = -n := Int.ofNat_natAbs_of_nonpos (le_of_lt h)
    simp [decodeInt, h2]
  next h =>
    have h2 : ((n.natAbs : Int)) = n := Int.natAbs_of_nonneg (le_of_not_lt h)
    simp [decodeInt, h2]

theorem decodeStr_encode (s : String) (r : List Nat) :
    decodeStr (encodeStr s ++ r) = some (s, r) := by
  obtain ⟨d⟩ := s
  have h := readN_append (d.map Char.toNat) r
  simp only [List.length_map] at h
  simp [decodeStr, encodeStr, h, List.map_map, Function.comp_def]

mutual

theorem decodeValueF_encode :
    ∀ (v : MiftahValue) (f : Nat), weight v ≤ f → ∀ r : List Nat,
      decodeValueF f (encodeValue v ++ r) = some (v, r)
  | .vnull, f + 1, _, r => by simp [encodeValue, decodeValueF]
  | .vbool b, f + 1, _, r => by cases b <;> simp [encodeValue, decodeValueF]
  | .vnum n, f + 1, _, r => by
    simp [encodeValue, decodeValueF, decodeInt_encode n r]
  | .vstr s, f + 1, _, r => by
    simp [encodeValue, decodeValueF, decodeStr_encode s r]
  | .vbin bs, f + 1, _, r => by
    have h := readN_append bs r
    simp [encodeValue, decodeValueF, h]
  | .vdate n, f + 1, _, r => by
    simp [encodeValue, decodeValueF, decodeInt_encode n r]
  | .varr vs, f + 1, hf, r => by
    have hw : listWeight vs ≤ f := by
      simp [weight] at hf; omega
    simp [encodeValue, decodeValueF, decodeListF_encode vs f hw r]
  | .vobj fs, f + 1, hf, r => by
    have hw : fieldsWeight fs ≤ f := by
      simp [weight] at hf; omega
    simp [encodeValue, decodeValueF, decodeFieldsF_encode fs f hw r]

theorem decodeListF_encode :
    ∀ (vs : MiftahList) (f : Nat), listWeight vs ≤ f → ∀ r : List Nat,
      decodeListF f (listLen vs) (encodeList vs ++ r) = some (vs, r)
  | .nil, f, _, r => by simp [listLen, encodeList, decodeListF]
  | .cons v vs, f + 1, hf, r => by
    have hv : weight v ≤ f := by simp [listWeight] at hf; omega
    have hvs : listWeight vs ≤ f := by simp [listWeight] at hf; omega
    have h1 := decodeValueF_encode v f hv (encodeList vs ++ r)
    have h2 := decodeListF_encode vs f hvs r
    simp [listLen, encodeList, decodeListF, h1, h2]

theorem decodeFieldsF_encode :
    ∀ (fs : MiftahFields) (f : Nat), fieldsWeight fs ≤ f → ∀ r : List Nat,
      decodeFieldsF f (fieldsLen fs) (encodeFields fs ++ r) = some (fs, r)
  | .fnil, f, _, r => by simp [fieldsLen, encodeFields, decodeFieldsF]
  | .fcons k v fs, f + 1, hf, r => by
    have hv : weight v ≤ f := by simp [fieldsWeight] at hf; omega
    have hfs : fieldsWeight fs ≤ f := by simp [fieldsWeight] at hf; omega
    have h0 := decodeStr_encode k (encodeValue v ++ (encodeFields fs ++ r))
    have h1 := decodeValueF_encode v f hv (encodeFields fs ++ r)
    have h2 := decodeFieldsF_encode fs f hfs r
    simp [fieldsLen, encodeFields, decodeFieldsF, h0, h1, h2]

end

theorem encodeValue_length_pos (v : MiftahValue) : 1 ≤ (encodeValue v).length := by
  cases v <;> simp [encodeValue]

mutual

theorem weight_le_length : ∀ v : MiftahValue, weight v ≤ (encodeValue v).length
  | .vnull => by simp [weight, encodeValue]
  | .vbool b => by simp [weight, encodeValue]
  | .vnum n => by simp [weight, encodeValue]
  | .vstr s => by simp [weight, encodeValue]
  | .vbin bs => by simp [weight, encodeValue]
  | .vdate n => by simp [weight, encodeValue]
  | .varr vs => by
    have h := listWeight_le_length vs
    simp only [weight, encodeValue, List.length_cons]
    omega
  | .vobj fs => by
    have h := fieldsWeight_le_length fs
    simp only [weight, encodeValue, List.length_cons]
    omega

theorem listWeight_le_length :
    ∀ vs : MiftahList, listWeight vs ≤ (encodeList vs).length + 1
  | .nil => by simp [listWeight, encodeList]
  | .cons v vs => by
    have h1 := weight_le_length v
    have h2 := listWeight_le_length vs
    have h3 := encodeValue_length_pos v
    simp only [listWeight, encodeList, List.length_append]
    omega

theorem fieldsWeight_le_length :
    ∀ fs : MiftahFields, fieldsWeight fs ≤ (encodeFields fs).length + 1
  | .fnil => by simp [fieldsWeight, encodeFields]
  | .fcons k v fs => by
    have h1 := weight_le_length v
    have h2 := fieldsWeight_le_length fs
    have h3 : 1 ≤ (encodeStr k).length := by simp [encodeStr]
    simp only [fieldsWeight, encodeFields, List.length_append]
    omega

end

theorem decodeValue_encodeValue (v : MiftahValue) :
    decodeValue (encodeValue v) = some v := by
  have h := decodeValueF_encode v (encodeValue v).length (weight_le_length v) []
  rw [List.append_nil] at h
  simp [decodeValue, h]

/-! ### Association-list lemmas -/

theorem dbGet_setRow_self (db : DB) (k : String) (r : Row) :
    dbGet (dbSetRow db k r) k = some r := by
  induction db with
  | nil => simp [dbSetRow, dbGet]
  | cons e t ih =>
    obtain ⟨k', r'⟩ := e
    by_cases h : k' = k
    · simp [dbSetRow, dbGet, h]
    · simp [dbSetRow, dbGet, h, ih]

theorem dbGet_setRow_ne (db : DB) (k k' : String) (r : Row) (h : k' ≠ k) :
    dbGet (dbSetRow db k r) k' = dbGet db k' := by
  induction db with
  | nil => simp [dbSetRow, dbGet, Ne.symm h]
  | cons e t ih =>
    obtain ⟨k₀, r₀⟩ := e
    by_cases h0 : k₀ = k
    · subst h0
      simp [dbSetRow, dbGet, Ne.symm h]
    · simp [dbSetRow, dbGet, h0, ih]

theorem dbGet_delete_self (db : DB) (k : String) :
    dbGet (dbDelete db k) k = none := by
  induction db with
  | nil => simp [dbDelete, dbGet]
  | cons e t ih =>
    obtain ⟨k₀, r₀⟩ := e
    by_cases h0 : k₀ = k
    · simp [dbDelete, dbGet, h0, ih]
    · simp [dbDelete, dbGet, h0, ih]

theorem dbGet_delete_ne (db : DB) (k k' : String) (h : k' ≠ k) :
    dbGet (dbDelete db k) k' = dbGet db k' := by
  induction db with
  | nil => simp [dbDelete, dbGet]
  | cons e t ih =>
    obtain ⟨k₀, r₀⟩ := e
    by_cases h0 : k₀ = k
    · subst h0
      simp [dbDelete, dbGet, Ne.symm h, ih]
    · simp [dbDelete, dbGet, h0, ih]

/-! ### Transaction lemmas -/

theorem setMany_error (entries : List (String × JSValue × Option Int)) (db : DB)
    (h : ∃ e ∈ entries, e.2.1 = JSValue.unsupported) :
    setMany entries db = .error .validationError := by
  induction entries generalizing db with
  | nil => obtain ⟨e, he, _⟩ := h; exact absurd he (List.not_mem_nil e)
  | cons hd rest ih =>
    obtain ⟨k, v, x⟩ := hd
    cases v with
    | unsupported => simp [setMany, set, encodeJS]
    | supported v0 =>
      obtain ⟨e, he, hbad⟩ := h
      rcases List.mem_cons.mp he with heq | htail
      · subst heq; exact absurd hbad (by simp)
      · simp only [setMany, set, encodeJS]
        exact ih _ ⟨e, htail, hbad⟩

theorem setMany_ok (entries : List (String × JSValue × Option Int)) (db : DB)
    (h : ∀ e ∈ entries, e.2.1 ≠ JSValue.unsupported) :
    ∃ db', setMany entries db = .ok db' ∧
      ∀ k : String, ((∃ e ∈ entries, e.1 = k) ∨ (dbGet db k).isSome) →
        (dbGet db' k).isSome := by
  induction entries generalizing db with
  | nil =>
    refine ⟨db, rfl, fun k hk => ?_⟩
    rcases hk with ⟨e, he, _⟩ | hs
    · exact absurd he (List.not_mem_nil e)
    · exact hs
  | cons hd rest ih =>
    obtain ⟨k0, v, x⟩ := hd
    cases v with
    | unsupported => exact absurd rfl (h (k0, .unsupported, x) (List.mem_cons_self _ _))
    | supported v0 =>
      obtain ⟨db', hrun, hpres⟩ :=
        ih (dbSetRow db k0 ⟨encodeValue v0, x⟩)
          (fun e he => h e (List.mem_cons_of_mem _ he))
      refine ⟨db', by simp [setMany, set, encodeJS, hrun], fun k hk => ?_⟩
      apply hpres
      rcases hk with ⟨e, he, hek⟩ | hs
      · rcases List.mem_cons.mp he with heq | htail
        · subst heq
          right
          simp only [← hek, dbGet_setRow_self, Option.isSome_some]
        · exact Or.inl ⟨e, htail, hek⟩
      · by_cases hkk : k = k0
        · subst hkk
          right
          simp [dbGet_setRow_self]
        · right
          rw [dbGet_setRow_ne _ _ _ _ hkk]
          exact hs

/-! ### The claims -/

/-- C1 (counterexample): a physically present row whose `expires_at` is set
and ≤ the current time — namely `expires_at = 0` — on which `get` neither
returns null nor deletes the row: it returns the decoded stored value and
leaves the table unchanged. -/
theorem miftah_C1_counterexample :
    dbGet [("k", ⟨encodeValue (.vbool true), some 0⟩)] "k"
        = some ⟨encodeValue (.vbool true), some 0⟩ ∧
    (0 : Int) ≤ 1000 ∧
    get [("k", ⟨encodeValue (.vbool true), some 0⟩)] "k" 1000
        = (some (.vbool true), [("k", ⟨encodeValue (.vbool true), some 0⟩)]) :=
  ⟨rfl, by decide, rfl⟩

/-- C1 (amended): `get` returns null when no row is present; when a row is
present with `expires_at` set, **nonzero** and ≤ now, it deletes the row and
returns null; otherwise (no expiry, expiry `0`, or a future expiry) it
returns the decoded stored value and leaves the table unchanged.  The
truthiness test `result?.expires_at && result.expires_at <= Date.now()`
exempts a stored `0`. -/
theorem miftah_C1_get_lazy_expiration (db : DB) (k : String) (now : Int) :
    (dbGet db k = none → get db k now = (none, db)) ∧
    (∀ row t, dbGet db k = some row → row.expires_at = some t → t ≠ 0 →
      t ≤ now → get db k now = (none, delete db k)) ∧
    (∀ row, dbGet db k = some row → isExpiredJS row.expires_at now = false →
      get db k now = (decodeValue row.value, db)) := by
  refine ⟨?_, ?_, ?_⟩
  · intro h; simp [get, h]
  · intro row t hrow hexp ht hle
    have hx : isExpiredJS row.expires_at now = true := by
      simp [isExpiredJS, hexp, ht, hle]
    simp [get, hrow, hx]
  · intro row hrow hx
    simp [get, hrow, hx]

/-- C1 (witness): a nonzero past expiry really is lazily reclaimed. -/
theorem miftah_C1_witness :
    get [("k", ⟨encodeValue .vnull, some 3⟩)] "k" 5 = (none, []) :=
  (miftah_C1_get_lazy_expiration _ "k" 5).2.1 ⟨encodeValue .vnull, some 3⟩ 3
    rfl rfl (by decide) (by decide)

/-- C2 (confirmed): `multiSet` is atomic — if any entry's value fails to
encode, the whole batch errors and the table is exactly the initial one; if
every entry encodes, no error is reported and every key of the batch is
present afterwards. -/
theorem miftah_C2_multiSet_atomic (entries : List (String × JSValue × Option Int))
    (db : DB) :
    ((∃ e ∈ entries, e.2.1 = JSValue.unsupported) →
      multiSet entries db = (some MiftahError.validationError, db)) ∧
    ((∀ e ∈ entries, e.2.1 ≠ JSValue.unsupported) →
      (multiSet entries db).1 = none ∧
      ∀ e ∈ entries, existsM (multiSet entries db).2 e.1 = true) := by
  constructor
  · intro h
    simp [multiSet, setMany_error entries db h]
  · intro h
    obtain ⟨db', hrun, hpres⟩ := setMany_ok entries db h
    refine ⟨by simp [multiSet, hrun], fun e he => ?_⟩
    simp only [multiSet, hrun, existsM]
    exact hpres e.1 (Or.inl ⟨e, he, rfl⟩)

/-- C2 (witness): the spec's atomicity example — a batch of a good entry and
an unencodable one leaves neither key present (the table stays empty). -/
theorem miftah_C2_witness :
    multiSet [("x", JSValue.supported (.vnum 1), none),
              ("y", JSValue.unsupported, none)] []
      = (some MiftahError.validationError, []) :=
  (miftah_C2_multiSet_atomic _ []).1 ⟨("y", JSValue.unsupported, none), by simp, rfl⟩

/-- C3 (counterexample): `pagination` performs no input validation — with a
non-positive limit it does not fail with a `ValidationError` but returns
normally: limit `0` yields no rows and limit `-1` yields all matching keys
(the backend's "no limit"). -/
theorem miftah_C3_counterexample :
    pagination [("k", ⟨[0], none⟩)] 0 1 "%" = [] ∧
    pagination [("k", ⟨[0], none⟩)] (-1) 1 "%" = ["k"] :=
  ⟨rfl, rfl⟩

/-- C3 (amended): an unencodable value makes `set` fail with
`ValidationError`, but non-positive pagination inputs are not validated:
they are forwarded to the backend, where limit `0` returns no rows and a
negative limit returns every matching key from the requested offset. -/
theorem miftah_C3_validation (db : DB) (k : String) (page : Int) (pat : String) :
    set db k JSValue.unsupported none = .error MiftahError.validationError ∧
    pagination db 0 page pat = [] ∧
    pagination db (-1) 1 pat = keysM db pat := by
  refine ⟨rfl, ?_, ?_⟩
  · simp [pagination, sqliteSlice]
  · norm_num [pagination, sqliteSlice]

/-- C4 (confirmed): for limit > 0 and page ≥ 1, `pagination` returns the
`(page-1)*limit`-offset slice of the matching key sequence, of length at
most `limit`; page numbering is 1-based. -/
theorem miftah_C4_pagination (db : DB) (limit page : Int) (pat : String)
    (hl : 0 < limit) (_hp : 1 ≤ page) :
    pagination db limit page pat
      = ((keysM db pat).drop ((page - 1) * limit).toNat).take limit.toNat ∧
    (pagination db limit page pat).length ≤ limit.toNat := by
  have hnn : ¬ limit < 0 := by omega
  constructor
  · simp [pagination, sqliteSlice, hnn]
  · simp only [pagination, sqliteSlice, hnn, if_false, List.length_take]
    omega

/-- C4 (witness): with keys k1..k10 inserted in order, `pagination(3, 2)`
returns exactly the 4th through 6th matching keys. -/
theorem miftah_C4_witness :
    pagination [("k1", ⟨[], none⟩), ("k2", ⟨[], none⟩), ("k3", ⟨[], none⟩),
      ("k4", ⟨[], none⟩), ("k5", ⟨[], none⟩), ("k6", ⟨[], none⟩),
      ("k7", ⟨[], none⟩), ("k8", ⟨[], none⟩), ("k9", ⟨[], none⟩),
      ("k10", ⟨[], none⟩)] 3 2 "%" = ["k4", "k5", "k6"] :=
  ((miftah_C4_pagination _ 3 2 "%" (by decide) (by decide)).1).trans rfl

/-- C5 (counterexample): a row that is "expired" in the claim's sense —
`expires_at` set (to 0) and ≤ now — on which `exists` returns true but `get`
does **not** return null. -/
theorem miftah_C5_counterexample :
    existsM [("k", ⟨encodeValue .vnull, some 0⟩)] "k" = true ∧
    (0 : Int) ≤ 1000 ∧
    (get [("k", ⟨encodeValue .vnull, some 0⟩)] "k" 1000).1 = some .vnull :=
  ⟨rfl, by decide, rfl⟩

/-- C5 (amended): for a physically present row whose `expires_at` is set,
**nonzero** and ≤ now, `exists` returns true (it reflects raw row presence)
while `get` on the same state returns null. -/
theorem miftah_C5_exists_ignores_expiration (db : DB) (k : String) (row : Row)
    (t now : Int) (hrow : dbGet db k = some row) (hexp : row.expires_at = some t)
    (ht : t ≠ 0) (hle : t ≤ now) :
    existsM db k = true ∧ (get db k now).1 = none := by
  constructor
  · simp [existsM, hrow]
  · have hx : isExpiredJS row.expires_at now = true := by
      simp [isExpiredJS, hexp, ht, hle]
    simp [get, hrow, hx]

/-- C5 (witness): concrete expired-but-present row. -/
theorem miftah_C5_witness :
    existsM [("k", ⟨[0], some 3⟩)] "k" = true ∧
    (get [("k", ⟨[0], some 3⟩)] "k" 5).1 = none :=
  miftah_C5_exists_ignores_expiration _ "k" ⟨[0], some 3⟩ 3 5 rfl rfl
    (by decide) (by decide)

/-- C6 (confirmed): `rename` relabels the row at `oldKey` to `newKey`,
overwriting any existing `newKey` row, and is a silent no-op when `oldKey`
is absent; in particular after `set("a", 1); rename("a", "b")`, `get("a")`
is null and `get("b")` is 1. -/
theorem miftah_C6_rename_semantics :
    (∀ (db : DB) (oldK newK : String),
      (dbGet db oldK = none → rename db oldK newK = db) ∧
      (∀ row, dbGet db oldK = some row →
        dbGet (rename db oldK newK) newK = some row ∧
        (oldK ≠ newK → dbGet (rename db oldK newK) oldK = none))) ∧
    (get (rename [("a", ⟨encodeValue (.vnum 1), none⟩)] "a" "b") "a" 0).1
        = none ∧
    (get (rename [("a", ⟨encodeValue (.vnum 1), none⟩)] "a" "b") "b" 0).1
        = some (.vnum 1) := by
  refine ⟨?_, rfl, rfl⟩
  intro db oldK newK
  constructor
  · intro h; simp [rename, h]
  · intro row hrow
    constructor
    · simp [rename, hrow, dbGet_setRow_self]
    · intro hne
      simp only [rename, hrow]
      rw [dbGet_setRow_ne _ _ _ _ hne, dbGet_delete_self]

/-- C6 (witness): relabelling moves the row from the old key to the new. -/
theorem miftah_C6_witness :
    dbGet (rename [("a", ⟨[7], none⟩)] "a" "b") "b" = some ⟨[7], none⟩ ∧
    dbGet (rename [("a", ⟨[7], none⟩)] "a" "b") "a" = none :=
  ⟨((miftah_C6_rename_semantics.1 [("a", ⟨[7], none⟩)] "a" "b").2
      ⟨[7], none⟩ rfl).1,
   ((miftah_C6_rename_semantics.1 [("a", ⟨[7], none⟩)] "a" "b").2
      ⟨[7], none⟩ rfl).2 (by decide)⟩

/-- C7 (counterexample): a present row whose expiry **is** set — to `0` —
for which `getExpire` still returns null, against the claim's "returns the
stored expiry timestamp when one is set". -/
theorem miftah_C7_counterexample :
    dbGet [("k", ⟨[0], some 0⟩)] "k" = some ⟨[0], some 0⟩ ∧
    getExpire [("k", ⟨[0], some 0⟩)] "k" = none :=
  ⟨rfl, rfl⟩

/-- C7 (amended): `getExpire` returns the stored expiry when one is set and
nonzero; it returns null when the key is absent, when the row has no
expiration, and also when the stored expiry is exactly `0` (truthiness), so
the return value alone cannot distinguish "never expires" from "key
missing". -/
theorem miftah_C7_getExpire_ambiguity (db : DB) (k : String) :
    (dbGet db k = none → getExpire db k = none) ∧
    (∀ row, dbGet db k = some row → row.expires_at = none →
      getExpire db k = none) ∧
    (∀ row t, dbGet db k = some row → row.expires_at = some t → t ≠ 0 →
      getExpire db k = some t) := by
  refine ⟨?_, ?_, ?_⟩
  · intro h; simp [getExpire, h]
  · intro row hrow hexp; simp [getExpire, hrow, hexp]
  · intro row t hrow hexp ht; simp [getExpire, hrow, hexp, ht]

/-- C7 (witness): a set, nonzero expiry is returned as stored. -/
theorem miftah_C7_witness :
    getExpire [("k", ⟨[0], some 42⟩)] "k" = some 42 :=
  (miftah_C7_getExpire_ambiguity _ "k").2.2 ⟨[0], some 42⟩ 42 rfl rfl (by decide)

/-- C8 (confirmed): `cleanup` physically deletes exactly the rows whose
`expires_at` is set and ≤ now, and when no further row has expired by the
second call, a repeated `cleanup` leaves the table — hence `count` —
unchanged. -/
theorem miftah_C8_cleanup (db : DB) (now1 now2 : Int) (pat : String) :
    (∀ e : String × Row, e ∈ cleanup db now1 ↔
      e ∈ db ∧ expiredSQL e.2 now1 = false) ∧
    ((∀ e ∈ cleanup db now1, expiredSQL e.2 now2 = false) →
      cleanup (cleanup db now1) now2 = cleanup db now1 ∧
      count (cleanup (cleanup db now1) now2) pat = count (cleanup db now1) pat) := by
  constructor
  · intro e
    simp [cleanup, List.mem_filter, Bool.not_eq_true']
  · intro h
    have heq : cleanup (cleanup db now1) now2 = cleanup db now1 :=
      List.filter_eq_self.mpr (fun e he => by simp [h e he])
    exact ⟨heq, by rw [heq]⟩

/-- C8 (witness): one expired and one eternal row; the second `cleanup` is a
no-op and `count` is unchanged. -/
theorem miftah_C8_witness :
    cleanup (cleanup [("a", ⟨[], some 5⟩), ("b", ⟨[], none⟩)] 10) 10
        = cleanup [("a", ⟨[], some 5⟩), ("b", ⟨[], none⟩)] 10 ∧
    count (cleanup (cleanup [("a", ⟨[], some 5⟩), ("b", ⟨[], none⟩)] 10) 10) "%"
        = count (cleanup [("a", ⟨[], some 5⟩), ("b", ⟨[], none⟩)] 10) "%" :=
  (miftah_C8_cleanup _ 10 10 "%").2 (by decide)

/-- C9 (confirmed): the codec round-trips every supported value kind,
preserving the kind — in particular numeric 0, boolean false and null decode
back to themselves and do not collapse to a shared representation. -/
theorem miftah_C9_codec_roundtrip :
    (∀ v : MiftahValue, decodeValue (encodeValue v) = some v) ∧
    decodeValue (encodeValue (.vnum 0)) = some (.vnum 0) ∧
    decodeValue (encodeValue (.vbool false)) = some (.vbool false) ∧
    decodeValue (encodeValue .vnull) = some .vnull ∧
    decodeValue (encodeValue (.vnum 0)) ≠ decodeValue (encodeValue (.vbool false)) := by
  refine ⟨decodeValue_encodeValue, rfl, rfl, rfl, ?_⟩
  rw [decodeValue_encodeValue, decodeValue_encodeValue]
  intro h
  injection h with h
  exact MiftahValue.noConfusion h

/-- C10 (confirmed): a row with `expires_at` exactly `0` is never treated as
expired by `get` — the decoded value is returned and the table is unchanged —
and `getExpire` maps it to null, both because of the truthiness test on
`expires_at`. -/
theorem miftah_C10_zero_expiry_truthiness (db : DB) (k : String) (row : Row)
    (now : Int) (hrow : dbGet db k = some row) (hexp : row.expires_at = some 0) :
    get db k now = (decodeValue row.value, db) ∧ getExpire db k = none := by
  constructor
  · simp [get, hrow, isExpiredJS, hexp]
  · simp [getExpire, hrow, hexp]

/-- C10 (witness): epoch expiry at a long-past current time still yields the
stored value and a null expiry. -/
theorem miftah_C10_witness :
    get [("k", ⟨encodeValue .vnull, some 0⟩)] "k" 999
        = (decodeValue (encodeValue .vnull), [("k", ⟨encodeValue .vnull, some 0⟩)]) ∧
    getExpire [("k", ⟨encodeValue .vnull, some 0⟩)] "k" = none :=
  miftah_C10_zero_expiry_truthiness _ "k" ⟨encodeValue .vnull, some 0⟩ 999 rfl rfl

end MiftahDB
